import Mathlib

/-!
# Verification of the kernel bring-up code (`pt.c`, `kmain.c`)

Shallow embedding of

* `install_page_directory` (`pt.c`): the two paging tables are total maps from
  the 1024 valid indices to machine words, the two `for` loops are recursive
  functions on an explicit iteration budget;
* `serial_is_transmit_fifo_empty`, `itoa`, `fb_write_cell`, `terminal_scroll`,
  `fb_move_cursor` and `putchar` (`kmain.c`).

Machine integers are natural numbers (or integers for `int`) with explicit
reduction modulo `2 ^ 32` where a C operation could wrap.
-/

namespace OS

/-! ## Machine words -/

/-- Truncation to a 32-bit `unsigned int` / `unsigned long` (i386). -/
def u32 (x : Nat) : Nat := x % 2 ^ 32

/-- Truncation to a 16-bit `unsigned short`. -/
def u16 (x : Nat) : Nat := x % 2 ^ 16

/-- Truncation to an 8-bit `unsigned char`. -/
def u8 (x : Nat) : Nat := x % 2 ^ 8

/-! ## `pt.c` -/

/-- A table of 1024 words: `unsigned long int t[1024]`. -/
abbrev Table := Fin 1024 → Nat

/-- The part of the machine `pt.c` can see: the two static tables, and the two
control registers that `load_pd` / `enable_paging` would write. -/
structure Machine where
  page_directory : Table
  first_page_table : Table
  cr3 : Nat
  cr0 : Nat

/-- Modelled from the spec: `load_pd` is an `extern` assembly routine that is not
part of the sources; the spec says it loads the directory's base address into
the page-table-base register. -/
def load_pd (pd_addr : Nat) (m : Machine) : Machine :=
  { m with cr3 := u32 pd_addr }

/-- Modelled from the spec: `enable_paging` is an `extern` assembly routine that
is not part of the sources; the spec says it sets the hardware flag that enables
translation (bit 31 of `cr0`). -/
def enable_paging (m : Machine) : Machine :=
  { m with cr0 := m.cr0 ||| 0x80000000 }

/-- First loop of `install_page_directory`:
`for (int i = 0; i < 1024; i++) page_directory[i] = 0x00000002;`
started at counter `i` with an iteration budget. -/
def directory_loop : Nat → Nat → Table → Table
  | 0, _, pd => pd
  | fuel + 1, i, pd =>
    if h : i < 1024 then
      directory_loop fuel (i + 1) (Function.update pd ⟨i, h⟩ 0x00000002)
    else pd

/-- Second loop of `install_page_directory`:
`for (unsigned int i = 0; i < 1024; i++) first_page_table[i] = (i * 0x1000) | 3;`
started at counter `i` with an iteration budget. -/
def table_loop : Nat → Nat → Table → Table
  | 0, _, pt => pt
  | fuel + 1, i, pt =>
    if h : i < 1024 then
      table_loop fuel (i + 1) (Function.update pt ⟨i, h⟩ (u32 (u32 (i * 0x1000) ||| 3)))
    else pt

/-- The function `install_page_directory` of `pt.c`. `fpt_addr` is the address
the linker gave to `first_page_table`; the calls to `load_pd` and
`enable_paging` are commented out in the source and therefore absent here. -/
def install_page_directory (fpt_addr : Nat) (m : Machine) : Machine :=
  let pd := directory_loop 1024 0 m.page_directory
  let pt := table_loop 1024 0 m.first_page_table
  let pd := Function.update pd 0 (u32 (u32 fpt_addr ||| 3))
  { m with page_directory := pd, first_page_table := pt }


/-- The two tables as the loader leaves them: static storage is zero-filled,
and so are the two control registers modelled here. -/
def boot_machine : Machine :=
  { page_directory := fun _ => 0, first_page_table := fun _ => 0, cr3 := 0, cr0 := 0 }

/-! ## `kmain.c`: serial port -/

/-- The macro `SERIAL_LINE_STATUS_PORT(base)`, `(base + 5)`, on an `unsigned int`. -/
def SERIAL_LINE_STATUS_PORT (base : Nat) : Nat := u32 (base + 5)

/-- The function `serial_is_transmit_fifo_empty`: `return inb(port) & 0x20;`.
The port-input routine `inb` is declared in `io.h`, outside the sources, and is
a parameter: `inb p` is the byte read from port `p`. The `int` result is never
negative and is given as a natural number. -/
def serial_is_transmit_fifo_empty (inb : Nat → Nat) (com : Nat) : Nat :=
  inb (SERIAL_LINE_STATUS_PORT com) &&& 0x20

/-! ## `kmain.c`: `itoa` -/

/-- The string literal `"0123456789abcdef"` as the array of seventeen bytes it
denotes, terminating NUL included. -/
def itoa_digits : List Nat :=
  [48, 49, 50, 51, 52, 53, 54, 55, 56, 57, 97, 98, 99, 100, 101, 102, 0]

/-- The value `INT_MIN` of a 32-bit `int`. -/
def INT_MIN : Int := -(2 ^ 31)

/-- The static buffer `buf[32] = {0}` before the first call. -/
def itoa_buf_init : Nat → Nat := fun _ => 0

/-- The loop of `itoa`, `for(; val && i; --i, val /= base) buf[i] = lit[val % base];`,
by recursion on the counter `i`. The result is the buffer and the final `i`;
`none` stands for undefined behaviour: division by zero, the overflow of
`INT_MIN / -1`, or an index outside the seventeen bytes of the literal. -/
def itoa_loop (base : Int) : Nat → Int → (Nat → Nat) → Option ((Nat → Nat) × Nat)
  | 0, _, buf => some (buf, 0)
  | i + 1, val, buf =>
    if val = 0 then some (buf, i + 1)
    else if base = 0 then none
    else if val = INT_MIN ∧ base = -1 then none
    else if 0 ≤ Int.tmod val base ∧ Int.tmod val base < 17 then
      itoa_loop base i (Int.tdiv val base)
        (Function.update buf (i + 1) (itoa_digits.getD (Int.tmod val base).toNat 0))
    else none

/-- The function `itoa`: the buffer after the call and the offset `i + 1` in
`buf` of the returned pointer `&buf[i+1]`. -/
def itoa (val base : Int) (buf : Nat → Nat) : Option ((Nat → Nat) × Nat) :=
  match itoa_loop base 30 val buf with
  | none => none
  | some (buf', i) => some (buf', i + 1)

/-- The C string at offset `p` of a buffer of which `n` bytes remain from `p`
on: the bytes before the first NUL; `none` when no NUL precedes the end of the
buffer. -/
def c_string (buf : Nat → Nat) : Nat → Nat → Option (List Nat)
  | 0, _ => none
  | n + 1, p =>
    if buf p = 0 then some []
    else
      match c_string buf n (p + 1) with
      | none => none
      | some s => some (buf p :: s)

/-- The static buffer after a sequence of calls `itoa(val, base)`, `none` when
one of them has undefined behaviour. -/
def itoa_run : List (Int × Int) → (Nat → Nat) → Option (Nat → Nat)
  | [], buf => some buf
  | (val, base) :: rest, buf =>
    match itoa val base buf with
    | none => none
    | some (buf', _) => itoa_run rest buf'

/-- The string a caller reads from `itoa(val, base)` once the calls of `earlier`
have been made, starting from the zero-filled static buffer. -/
def itoa_string_after (earlier : List (Int × Int)) (val base : Int) : Option (List Nat) :=
  match itoa_run earlier itoa_buf_init with
  | none => none
  | some buf =>
    match itoa val base buf with
    | none => none
    | some (buf', p) => c_string buf' (32 - p) p

/-- The character of the digit `d`: entry `d` of `"0123456789abcdef"`. -/
def digit_char (d : Nat) : Nat := itoa_digits.getD d 0

/-- The numeral of `val` in base `base`: most significant digit first,
lowercase. -/
def numeral (base val : Nat) : List Nat :=
  (Nat.digits base val).reverse.map digit_char

/-- The digit a character stands for: its position in `"0123456789abcdef"`, and
16 for any other character. -/
def digit_value (c : Nat) : Nat := (itoa_digits.take 16).indexOf c

/-- Evaluation of a string of digit characters in base `base`, most significant
digit first. -/
def evaluate (base : Nat) (s : List Nat) : Nat :=
  s.foldl (fun acc c => acc * base + digit_value c) 0

/-- The string `s` represents `val` in base `base`: it is non-empty, has no
leading `'0'`, consists of characters of `"0123456789abcdef"` that are digits of
that base, and evaluates to `val`. -/
def represents (base val : Nat) (s : List Nat) : Prop :=
  s ≠ [] ∧ s.head? ≠ some 48 ∧ (∀ c ∈ s, digit_value c < base ∧ digit_value c < 16) ∧
    evaluate base s = val

instance (base val : Nat) (s : List Nat) : Decidable (represents base val s) := by
  unfold represents
  infer_instance

/-! ## `kmain.c`: text terminal -/

/-- The constant `TERMINAL_BUF_LEN`. -/
def TERMINAL_BUF_LEN : Nat := 2000

/-- The constant `VGA_WIDTH`. -/
def VGA_WIDTH : Nat := 80

/-- The constant `VGA_HEIGHT`. -/
def VGA_HEIGHT : Nat := 25

/-- The macro `BG_BLACK`. -/
def BG_BLACK : Nat := 0

/-- The macro `FB_WHITE`. -/
def FB_WHITE : Nat := 15

/-- The macro `FB_COMMAND_PORT`. -/
def FB_COMMAND_PORT : Nat := 0x3D4

/-- The macro `FB_DATA_PORT`. -/
def FB_DATA_PORT : Nat := 0x3D5

/-- The macro `FB_HIGH_BYTE_COMMAND`. -/
def FB_HIGH_BYTE_COMMAND : Nat := 14

/-- The macro `FB_LOW_BYTE_COMMAND`. -/
def FB_LOW_BYTE_COMMAND : Nat := 15

/-- The state the terminal code works on: the bytes of the text buffer behind
the pointer `fb` (80 x 25 cells of two bytes), the globals `terminal_col` and
`terminal_row`, the writes made to I/O ports, and the trace of the offsets at
which `fb` was read or written, the most recent first. An access at an offset
outside the text buffer is recorded in the trace like any other; it reads 0 and
stores nothing. -/
structure Terminal where
  fb : Array Nat
  terminal_col : Nat
  terminal_row : Nat
  ports : List (Nat × Nat)
  trace : List Nat

/-- The terminal when `kmain` starts: both globals are initialised to 0. -/
def boot_terminal : Terminal :=
  { fb := Array.mkArray 4000 0, terminal_col := 0, terminal_row := 0, ports := [], trace := [] }

/-- A read of `fb[i]`: the byte, and the state with the access recorded. -/
def fb_read (i : Nat) (t : Terminal) : Nat × Terminal :=
  (t.fb.getD i 0, { t with trace := i :: t.trace })

/-- A write `fb[i] = v` of an `unsigned char`, with the access recorded. -/
def fb_store (i v : Nat) (t : Terminal) : Terminal :=
  { t with fb := t.fb.setD i (u8 v), trace := i :: t.trace }

/-- Modelled from the spec: `outb` is declared in `io.h` and written in assembly,
outside the sources; the spec counts it as I/O-register glue. The write of a
byte to a 16-bit port is recorded and nothing else changes. -/
def outb (port value : Nat) (t : Terminal) : Terminal :=
  { t with ports := (u16 port, u8 value) :: t.ports }

/-- The function `fb_move_cursor`, `pos` an `unsigned short`. -/
def fb_move_cursor (pos : Nat) (t : Terminal) : Terminal :=
  let t := outb FB_COMMAND_PORT FB_HIGH_BYTE_COMMAND t
  let t := outb FB_DATA_PORT ((pos >>> 8) &&& 0x00FF) t
  let t := outb FB_COMMAND_PORT FB_LOW_BYTE_COMMAND t
  outb FB_DATA_PORT (pos &&& 0x00FF) t

/-- The function `fb_write_cell`:
`fb[i] = c; fb[i + 1] = ((fg & 0x0F) << 4) | (bg & 0x0F);`. -/
def fb_write_cell (i c fg bg : Nat) (t : Terminal) : Terminal :=
  let t := fb_store i c t
  fb_store (u32 (i + 1)) (((fg &&& 0x0F) <<< 4) ||| (bg &&& 0x0F)) t

/-- First loop of `terminal_scroll`:
`for (i = 0; i < TERMINAL_BUF_LEN * 2 - 160; i += 2)`
`{ fb[i] = fb[i + 160]; fb[i + 1] = fb[i + 160 + 1]; }`,
started at counter `i` with an iteration budget. -/
def scroll_copy_loop : Nat → Nat → Terminal → Terminal
  | 0, _, t => t
  | fuel + 1, i, t =>
    if i < u32 (u32 (TERMINAL_BUF_LEN * 2) + 2 ^ 32 - 160) then
      let (a, t) := fb_read (u32 (i + 160)) t
      let t := fb_store i a t
      let (b, t) := fb_read (u32 (u32 (i + 160) + 1)) t
      let t := fb_store (u32 (i + 1)) b t
      scroll_copy_loop fuel (u32 (i + 2)) t
    else t

/-- Second loop of `terminal_scroll`:
`for (i = 0; i < VGA_WIDTH; i += 2)`
`fb_write_cell((VGA_HEIGHT - 2) * 2 * VGA_WIDTH + i, 0, BG_BLACK, BG_BLACK);`,
started at counter `i` with an iteration budget. -/
def scroll_clear_loop : Nat → Nat → Terminal → Terminal
  | 0, _, t => t
  | fuel + 1, i, t =>
    if i < VGA_WIDTH then
      scroll_clear_loop fuel (u32 (i + 2))
        (fb_write_cell (u32 (u32 (u32 (u32 (VGA_HEIGHT + 2 ^ 32 - 2) * 2) * VGA_WIDTH) + i))
          0 BG_BLACK BG_BLACK t)
    else t

/-- The function `terminal_scroll`. The first loop makes 1920 iterations and the
second 40. -/
def terminal_scroll (t : Terminal) : Terminal :=
  scroll_clear_loop 40 0 (scroll_copy_loop 1920 0 t)

/-- The function `putchar`; `c` is the byte of the `char` argument. -/
def putchar (c : Nat) (t : Terminal) : Terminal :=
  let t1 : Terminal :=
    if c = 10 then { t with terminal_col := 0, terminal_row := u32 (t.terminal_row + 1) }
    else t
  let c1 : Nat := if c = 10 then 0 else c
  let index := u32 (u32 (u32 (t1.terminal_row * VGA_WIDTH) * 2) + t1.terminal_col)
  let t2 := fb_write_cell index c1 BG_BLACK FB_WHITE t1
  let t3 : Terminal := { t2 with terminal_col := u32 (t2.terminal_col + 2) }
  let t4 : Terminal :=
    if t3.terminal_col = VGA_WIDTH then
      { t3 with terminal_col := 0, terminal_row := u32 (t3.terminal_row + 1) }
    else t3
  let t5 : Terminal :=
    if t4.terminal_row = u32 (VGA_HEIGHT + 2 ^ 32 - 1) then
      let t := terminal_scroll t4
      { t with terminal_row := u32 (t.terminal_row + 2 ^ 32 - 1) }
    else t4
  let cursor_index := u16 (u32 (u32 (u32 (t5.terminal_row + 1) * VGA_WIDTH) + t5.terminal_col))
  fb_move_cursor cursor_index t5

/-- The loop of `write`, `for (i = 0; i < len; i++) putchar(buf[i]);`, on the
bytes of the string. -/
def write (buf : List Nat) (t : Terminal) : Terminal :=
  buf.foldl (fun t c => putchar c t) t

/-- The cursor invariant: `terminal_row <= VGA_HEIGHT - 2`, `terminal_col` even
and `terminal_col < VGA_WIDTH`. -/
def cursor_ok (t : Terminal) : Prop :=
  t.terminal_row ≤ VGA_HEIGHT - 2 ∧ t.terminal_col % 2 = 0 ∧ t.terminal_col < VGA_WIDTH

instance (t : Terminal) : Decidable (cursor_ok t) := by
  unfold cursor_ok
  infer_instance

/-! # Theorems -/

/-! ### Loop lemmas of `install_page_directory` -/

theorem directory_loop_apply (fuel i : Nat) (pd : Table) (j : Fin 1024) :
    directory_loop fuel i pd j = if i ≤ j.val ∧ j.val < i + fuel then 2 else pd j := by
  induction fuel generalizing i pd with
  | zero =>
    have e : ¬ (i ≤ j.val ∧ j.val < i + 0) := by omega
    rw [if_neg e]
    rfl
  | succ n ih =>
    unfold directory_loop
    by_cases h : i < 1024
    · rw [dif_pos h, ih]
      by_cases hj : j = ⟨i, h⟩
      · subst hj
        simp
      · have hne : j.val ≠ i := fun e => hj (Fin.ext e)
        rw [Function.update_noteq hj]
        by_cases h1 : i ≤ j.val
        · have e1 : (i + 1 ≤ j.val ∧ j.val < i + 1 + n) ↔ (i ≤ j.val ∧ j.val < i + (n + 1)) := by
            omega
          simp only [e1]
        · have e1 : ¬ (i + 1 ≤ j.val ∧ j.val < i + 1 + n) := by omega
          have e2 : ¬ (i ≤ j.val ∧ j.val < i + (n + 1)) := by omega
          rw [if_neg e1, if_neg e2]
    · rw [dif_neg h]
      have e2 : ¬ (i ≤ j.val ∧ j.val < i + (n + 1)) := by
        have := j.isLt
        omega
      rw [if_neg e2]

theorem table_loop_apply (fuel i : Nat) (pt : Table) (j : Fin 1024) :
    table_loop fuel i pt j =
      if i ≤ j.val ∧ j.val < i + fuel then u32 (u32 (j.val * 0x1000) ||| 3) else pt j := by
  induction fuel generalizing i pt with
  | zero =>
    have e : ¬ (i ≤ j.val ∧ j.val < i + 0) := by omega
    rw [if_neg e]
    rfl
  | succ n ih =>
    unfold table_loop
    by_cases h : i < 1024
    · rw [dif_pos h, ih]
      by_cases hj : j = ⟨i, h⟩
      · subst hj
        simp
      · have hne : j.val ≠ i := fun e => hj (Fin.ext e)
        rw [Function.update_noteq hj]
        by_cases h1 : i ≤ j.val
        · have e1 : (i + 1 ≤ j.val ∧ j.val < i + 1 + n) ↔ (i ≤ j.val ∧ j.val < i + (n + 1)) := by
            omega
          simp only [e1]
        · have e1 : ¬ (i + 1 ≤ j.val ∧ j.val < i + 1 + n) := by omega
          have e2 : ¬ (i ≤ j.val ∧ j.val < i + (n + 1)) := by omega
          rw [if_neg e1, if_neg e2]
    · rw [dif_neg h]
      have e2 : ¬ (i ≤ j.val ∧ j.val < i + (n + 1)) := by
        have := j.isLt
        omega
      rw [if_neg e2]

/-- The budget 1024 lets the first loop run to its exit test: any larger budget
gives the same table. -/
theorem directory_loop_budget (fuel : Nat) (h : 1024 ≤ fuel) (pd : Table) :
    directory_loop fuel 0 pd = directory_loop 1024 0 pd := by
  funext j
  have := j.isLt
  rw [directory_loop_apply, directory_loop_apply, if_pos (by omega), if_pos (by omega)]

/-- The budget 1024 lets the second loop run to its exit test. -/
theorem table_loop_budget (fuel : Nat) (h : 1024 ≤ fuel) (pt : Table) :
    table_loop fuel 0 pt = table_loop 1024 0 pt := by
  funext j
  have := j.isLt
  rw [table_loop_apply, table_loop_apply, if_pos (by omega), if_pos (by omega)]

theorem install_first_page_table (A : Nat) (m : Machine) (j : Fin 1024) :
    (install_page_directory A m).first_page_table j = u32 (u32 (j.val * 0x1000) ||| 3) := by
  have := j.isLt
  simp only [install_page_directory]
  rw [table_loop_apply, if_pos (by omega)]

theorem install_page_directory_zero (A : Nat) (m : Machine) :
    (install_page_directory A m).page_directory 0 = u32 (u32 A ||| 3) := by
  simp [install_page_directory]

theorem install_page_directory_succ (A : Nat) (m : Machine) (j : Fin 1024) (hj : j ≠ 0) :
    (install_page_directory A m).page_directory j = 2 := by
  have := j.isLt
  simp only [install_page_directory]
  rw [Function.update_noteq hj, directory_loop_apply, if_pos (by omega)]

/-! ### Bit masks on page-table words -/

theorem frame_mask_testBit (j : Nat) :
    (0xFFFFF000 : Nat).testBit j = (decide (12 ≤ j) && decide (j < 32)) := by
  have e : (0xFFFFF000 : Nat) = (2 ^ 20 - 1) <<< 12 := by decide
  rw [e, Nat.testBit_shiftLeft, Nat.testBit_two_pow_sub_one]
  by_cases h : 12 ≤ j
  · have : (j - 12 < 20) ↔ j < 32 := by omega
    simp [h, this]
  · simp [h]

/-- Masking a 32-bit word with `0xFFFFF000` clears its low twelve bits. -/
theorem and_frame_mask (x : Nat) (hx : x < 2 ^ 32) :
    x &&& 0xFFFFF000 = x / 4096 * 4096 := by
  apply Nat.eq_of_testBit_eq
  intro j
  have e : x / 4096 * 4096 = 2 ^ 12 * (x / 2 ^ 12) := by
    rw [Nat.mul_comm]; rfl
  rw [Nat.testBit_and, frame_mask_testBit, e, Nat.testBit_mul_pow_two,
    ← Nat.shiftRight_eq_div_pow, Nat.testBit_shiftRight]
  by_cases h : 12 ≤ j
  · by_cases h2 : j < 32
    · have : 12 + (j - 12) = j := by omega
      simp [h, h2, this]
    · have hlt : x < 2 ^ j := lt_of_lt_of_le hx (Nat.pow_le_pow_right (by decide) (by omega))
      have : 12 + (j - 12) = j := by omega
      simp [h, h2, this, Nat.testBit_lt_two_pow hlt]
  · simp [h]

/-- Setting the two flag bits of a page-aligned address adds 3 to it. -/
theorem or_three (k : Nat) : k * 4096 ||| 3 = k * 4096 + 3 := by
  have := Nat.mul_add_lt_is_or (i := 12) (b := 3) (by decide) k
  rw [Nat.mul_comm] at this
  exact this.symm

theorem and_seven (x : Nat) : x &&& 7 = x % 8 := Nat.and_pow_two_sub_one_eq_mod x 3

theorem and_low_twelve (x : Nat) : x &&& 0xFFF = x % 4096 := Nat.and_pow_two_sub_one_eq_mod x 12

/-- Bits 3 to 11 of a word are those of its low twelve bits. -/
theorem and_attr_mask (x : Nat) : x &&& 0xFF8 = (x % 4096) &&& 0xFF8 := by
  have e : (0xFF8 : Nat) = 0xFFF &&& 0xFF8 := by decide
  rw [← and_low_twelve, Nat.and_assoc, ← e]

/-- The word built from a page-aligned 32-bit address `k * 4096` and the flags
`present | writable`. -/
theorem entry_word (k : Nat) (hk : k < 2 ^ 20) :
    u32 (u32 (k * 4096) ||| 3) = k * 4096 + 3 := by
  have h1 : u32 (k * 4096) = k * 4096 := by
    unfold u32
    exact Nat.mod_eq_of_lt (by omega)
  rw [h1, or_three]
  unfold u32
  exact Nat.mod_eq_of_lt (by omega)

/-- Decoding of the word `k * 4096 + 3`. -/
theorem entry_word_decode (k : Nat) (hk : k < 2 ^ 20) :
    (k * 4096 + 3) &&& 0xFFFFF000 = k * 4096 ∧ (k * 4096 + 3) &&& 7 = 3 ∧
      (k * 4096 + 3) &&& 0xFF8 = 0 := by
  refine ⟨?_, ?_, ?_⟩
  · rw [and_frame_mask _ (by omega)]
    omega
  · rw [and_seven]
    omega
  · rw [and_attr_mask]
    have : (k * 4096 + 3) % 4096 = 3 := by omega
    rw [this]
    decide

/-- The present bit of a word with the flags `present | writable` or-ed in. -/
theorem present_bit_set (a : Nat) : u32 (u32 a ||| 3) &&& 1 = 1 := by
  have hlt : u32 a ||| 3 < 2 ^ 32 :=
    Nat.or_lt_two_pow (Nat.mod_lt _ (by decide)) (by decide)
  have h1 : u32 (u32 a ||| 3) = u32 a ||| 3 := by
    show (u32 a ||| 3) % 2 ^ 32 = _
    exact Nat.mod_eq_of_lt hlt
  rw [h1, Nat.and_one_is_mod, Nat.or_mod_two_eq_one]
  right
  rfl

/-! ### Claims on `install_page_directory` -/

/-- C1: after `install_page_directory`, whatever the tables held before, entry
`i` of `first_page_table` is `i * 4096 + 3`: masked with `0xFFFFF000` it is
`i * 4096`, its low three bits are `0b011`, and bits 3 to 11 are zero; entries
0, 1 and 1023 are `0x00000003`, `0x00001003` and `0x003FF003`. -/
theorem first_page_table_identity (A : Nat) (m : Machine) (i : Fin 1024) :
    (install_page_directory A m).first_page_table i = i.val * 4096 + 3 ∧
    (install_page_directory A m).first_page_table i &&& 0xFFFFF000 = i.val * 4096 ∧
    (install_page_directory A m).first_page_table i &&& 0x7 = 3 ∧
    (install_page_directory A m).first_page_table i &&& 0xFF8 = 0 ∧
    (install_page_directory A m).first_page_table 0 = 0x00000003 ∧
    (install_page_directory A m).first_page_table 1 = 0x00001003 ∧
    (install_page_directory A m).first_page_table 1023 = 0x003FF003 := by
  have key : ∀ j : Fin 1024,
      (install_page_directory A m).first_page_table j = j.val * 4096 + 3 := by
    intro j
    have := j.isLt
    rw [install_first_page_table]
    exact entry_word j.val (by omega)
  have hi := i.isLt
  obtain ⟨d1, d2, d3⟩ := entry_word_decode i.val (by omega)
  rw [key i, key 0, key 1, key 1023]
  exact ⟨rfl, d1, d2, d3, rfl, rfl, rfl⟩

/-- C2: for every 32-bit, 4 KiB-aligned address `A` of `first_page_table`, after
`install_page_directory` entry 0 of `page_directory` is `A | 0x3`: masked with
`0xFFFFF000` it is `A`, and its low three bits are `0b011`. -/
theorem page_directory_entry_zero (A : Nat) (hA : A < 2 ^ 32) (halign : A % 4096 = 0)
    (m : Machine) :
    (install_page_directory A m).page_directory 0 = A ||| 0x3 ∧
    (install_page_directory A m).page_directory 0 &&& 0xFFFFF000 = A ∧
    (install_page_directory A m).page_directory 0 &&& 0x7 = 3 := by
  have hk : A = A / 4096 * 4096 := by omega
  have hk2 : A / 4096 < 2 ^ 20 := by omega
  have hu : u32 A = A := Nat.mod_eq_of_lt hA
  have hw := entry_word (A / 4096) hk2
  rw [← hk] at hw
  obtain ⟨d1, d2, -⟩ := entry_word_decode (A / 4096) hk2
  rw [← hk] at d1 d2
  have ho : A ||| 3 = A + 3 := by
    have := or_three (A / 4096)
    rw [← hk] at this
    exact this
  rw [install_page_directory_zero, hw]
  exact ⟨ho.symm, d1, d2⟩

/-- Witness of C2 at the address `0x00105000`. -/
theorem page_directory_entry_zero_witness :
    (install_page_directory 0x105000 boot_machine).page_directory 0 = 0x105000 ||| 0x3 ∧
    (install_page_directory 0x105000 boot_machine).page_directory 0 &&& 0xFFFFF000 = 0x105000 ∧
    (install_page_directory 0x105000 boot_machine).page_directory 0 &&& 0x7 = 3 :=
  page_directory_entry_zero 0x105000 (by decide) (by decide) boot_machine

/-- C3: after `install_page_directory`, whatever the directory held before,
every entry `j` with `1 <= j < 1024` of `page_directory` is `0x00000002`, and
entry 0 is the only entry whose present bit is set. -/
theorem page_directory_rest_not_present (A : Nat) (m : Machine) (j : Fin 1024)
    (hj : 1 ≤ j.val) :
    (install_page_directory A m).page_directory j = 0x00000002 ∧
    ∀ k : Fin 1024, (install_page_directory A m).page_directory k &&& 1 = 1 ↔ k = 0 := by
  have hne : j ≠ 0 := by
    intro e
    rw [e] at hj
    exact absurd hj (by decide)
  refine ⟨install_page_directory_succ A m j hne, ?_⟩
  intro k
  by_cases hk : k = 0
  · subst hk
    rw [install_page_directory_zero]
    exact ⟨fun _ => rfl, fun _ => present_bit_set A⟩
  · rw [install_page_directory_succ A m k hk]
    exact ⟨fun h => absurd h (by decide), fun h => absurd h hk⟩

/-- Witness of C3 at entry 5, from the zero-filled tables. -/
theorem page_directory_rest_not_present_witness :
    (install_page_directory 0x105000 boot_machine).page_directory 5 = 0x00000002 ∧
    ∀ k : Fin 1024,
      (install_page_directory 0x105000 boot_machine).page_directory k &&& 1 = 1 ↔ k = 0 :=
  page_directory_rest_not_present 0x105000 boot_machine 5 (by decide)

/-- C4: `install_page_directory` is idempotent: for every initial machine and
table address, a second run leaves each of the 1024 entries of both tables as
the first run left them. -/
theorem install_page_directory_idempotent (A : Nat) (m : Machine) (j : Fin 1024) :
    (install_page_directory A (install_page_directory A m)).page_directory j =
      (install_page_directory A m).page_directory j ∧
    (install_page_directory A (install_page_directory A m)).first_page_table j =
      (install_page_directory A m).first_page_table j := by
  constructor
  · by_cases hj : j = 0
    · subst hj
      rw [install_page_directory_zero, install_page_directory_zero]
    · rw [install_page_directory_succ _ _ j hj, install_page_directory_succ _ _ j hj]
  · rw [install_first_page_table, install_first_page_table]

/-- C5: `install_page_directory` performs no hardware activation: the
page-table-base register and the paging-enable register are as before, and the
machine after the call is the machine before with only the two tables
replaced. -/
theorem install_page_directory_no_activation (A : Nat) (m : Machine) :
    (install_page_directory A m).cr3 = m.cr3 ∧
    (install_page_directory A m).cr0 = m.cr0 ∧
    install_page_directory A m =
      { m with page_directory := (install_page_directory A m).page_directory,
               first_page_table := (install_page_directory A m).first_page_table } := by
  refine ⟨?_, ?_, ?_⟩ <;> simp only [install_page_directory]

/-! ### Claim on `serial_is_transmit_fifo_empty` -/

/-- The function returns the masked status byte: 32 when bit 5 is set, 0 when
it is clear. -/
theorem serial_is_transmit_fifo_empty_value (inb : Nat → Nat) (com : Nat) :
    serial_is_transmit_fifo_empty inb com =
      if (inb (SERIAL_LINE_STATUS_PORT com)).testBit 5 then 32 else 0 := by
  unfold serial_is_transmit_fifo_empty
  have e : (0x20 : Nat) = 2 ^ 5 := by decide
  rw [e, Nat.and_two_pow]
  by_cases h : (inb (SERIAL_LINE_STATUS_PORT com)).testBit 5 <;> simp [h]

/-- C7: with the line status byte `0x20` (transmit FIFO empty) read from COM1,
`serial_is_transmit_fifo_empty` returns 32, not the documented 1. -/
theorem serial_is_transmit_fifo_empty_returns_mask :
    serial_is_transmit_fifo_empty (fun _ => 0x20) 0x3F8 = 32 ∧
    serial_is_transmit_fifo_empty (fun _ => 0x20) 0x3F8 ≠ 1 ∧
    (0x20 : Nat).testBit 5 = true := by
  decide


/-! ### `itoa` -/

theorem c_string_congr (buf buf' : Nat → Nat) (n p : Nat)
    (h : ∀ k, p ≤ k → buf k = buf' k) : c_string buf n p = c_string buf' n p := by
  induction n generalizing p with
  | zero => rfl
  | succ n ih =>
    unfold c_string
    rw [h p (le_refl p), ih (p + 1) (fun k hk => h k (by omega))]

/-- The loop never writes above its counter. -/
theorem itoa_loop_frame (base : Int) (i : Nat) (val : Int) (buf buf' : Nat → Nat) (p : Nat)
    (h : itoa_loop base i val buf = some (buf', p)) (k : Nat) (hk : i < k) :
    buf' k = buf k := by
  induction i generalizing val buf with
  | zero =>
    simp only [itoa_loop, Option.some.injEq, Prod.mk.injEq] at h
    rw [← h.1]
  | succ i ih =>
    unfold itoa_loop at h
    split_ifs at h with h0 h1 h2 h3
    · simp only [Option.some.injEq, Prod.mk.injEq] at h
      rw [← h.1]
    · rw [ih _ _ h (by omega)]
      exact Function.update_noteq (by omega) _ _

/-- A call of `itoa` leaves the last byte of the buffer as it was. -/
theorem itoa_frame (val base : Int) (buf buf' : Nat → Nat) (p : Nat)
    (h : itoa val base buf = some (buf', p)) : buf' 31 = buf 31 := by
  unfold itoa at h
  split at h
  · exact absurd h (by simp)
  · rename_i b i heq
    simp only [Option.some.injEq, Prod.mk.injEq] at h
    rw [← h.1]
    exact itoa_loop_frame base 30 val buf b i heq 31 (by decide)

/-- The last byte of the static buffer is NUL after any sequence of calls. -/
theorem itoa_run_last (calls : List (Int × Int)) (buf buf' : Nat → Nat)
    (h : itoa_run calls buf = some buf') : buf' 31 = buf 31 := by
  induction calls generalizing buf with
  | nil =>
    simp only [itoa_run, Option.some.injEq] at h
    rw [h]
  | cons c rest ih =>
    obtain ⟨v, b⟩ := c
    unfold itoa_run at h
    split at h
    · exact absurd h (by simp)
    · rename_i b1 p heq
      rw [ih _ h, itoa_frame v b buf b1 p heq]

/-- One iteration of the loop on a non-zero value and a base from 2 to 16. -/
theorem itoa_loop_step (b i v : Nat) (hb : 2 ≤ b) (hb16 : b ≤ 16) (hv : v ≠ 0)
    (buf : Nat → Nat) :
    itoa_loop (b : Int) (i + 1) (v : Int) buf =
      itoa_loop (b : Int) i ((v / b : Nat) : Int)
        (Function.update buf (i + 1) (digit_char (v % b))) := by
  have hm : v % b < b := Nat.mod_lt _ (by omega)
  have h0 : ¬ ((v : Int) = 0) := by exact_mod_cast hv
  have h1 : ¬ ((b : Int) = 0) := by
    have : b ≠ 0 := by omega
    exact_mod_cast this
  have h2 : ¬ ((v : Int) = INT_MIN ∧ (b : Int) = -1) := by
    intro h
    have : (0 : Int) ≤ (b : Int) := Int.ofNat_nonneg b
    omega
  have h3 : 0 ≤ Int.tmod (v : Int) (b : Int) ∧ Int.tmod (v : Int) (b : Int) < 17 := by
    rw [← Int.ofNat_tmod]
    constructor
    · exact Int.ofNat_nonneg _
    · have : v % b < 17 := by omega
      exact_mod_cast this
  rw [itoa_loop, if_neg h0, if_neg h1, if_neg h2, if_pos h3, ← Int.ofNat_tmod, ← Int.ofNat_tdiv,
    Int.toNat_ofNat]
  rfl

theorem digit_char_ne_zero : ∀ d < 16, digit_char d ≠ 0 := by decide

theorem digit_char_ne_zero_char : ∀ d < 16, d ≠ 0 → digit_char d ≠ 48 := by decide

theorem digit_value_digit_char : ∀ d < 16, digit_value (digit_char d) = d := by decide

theorem numeral_zero (b : Nat) : numeral b 0 = [] := by
  simp [numeral]

theorem numeral_step (b v : Nat) (hb : 2 ≤ b) (hv : v ≠ 0) :
    numeral b v = numeral b (v / b) ++ [digit_char (v % b)] := by
  unfold numeral
  rw [Nat.digits_def' (by omega) (Nat.pos_of_ne_zero hv)]
  simp

/-- The loop writes the numeral of `v` in front of the string that follows the
counter, provided `v` has at most `i` digits. -/
theorem itoa_loop_string (b : Nat) (hb : 2 ≤ b) (hb16 : b ≤ 16) (i v : Nat)
    (buf : Nat → Nat) (tail : List Nat) (hv : v < b ^ i)
    (htail : c_string buf (31 - i) (i + 1) = some tail) :
    ∃ buf' p, itoa_loop (b : Int) i (v : Int) buf = some (buf', p) ∧
      c_string buf' (31 - p) (p + 1) = some (numeral b v ++ tail) := by
  induction i generalizing v buf tail with
  | zero =>
    have hv0 : v = 0 := by simpa using hv
    subst hv0
    exact ⟨buf, 0, rfl, by rw [numeral_zero]; exact htail⟩
  | succ i ih =>
    by_cases hv0 : v = 0
    · subst hv0
      refine ⟨buf, i + 1, ?_, ?_⟩
      · simp [itoa_loop]
      · rw [numeral_zero]
        exact htail
    · have hi : i ≤ 29 := by
        by_contra hcon
        have e : 31 - (i + 1) = 0 := by omega
        rw [e] at htail
        simp [c_string] at htail
      have hd : v % b < 16 := by
        have := Nat.mod_lt v (show 0 < b by omega)
        omega
      have hquot : v / b < b ^ i := by
        rw [Nat.div_lt_iff_lt_mul (by omega)]
        rw [pow_succ] at hv
        exact hv
      have hstr : c_string (Function.update buf (i + 1) (digit_char (v % b))) (31 - i) (i + 1) =
          some (digit_char (v % b) :: tail) := by
        have e : 31 - i = (31 - (i + 1)) + 1 := by omega
        rw [e, c_string]
        rw [Function.update_same, if_neg (digit_char_ne_zero _ hd)]
        rw [c_string_congr _ buf _ _ (fun k hk => Function.update_noteq (by omega) _ _), htail]
      obtain ⟨buf', p, hrun, hres⟩ := ih (v / b) _ _ hquot hstr
      refine ⟨buf', p, ?_, ?_⟩
      · rw [itoa_loop_step b i v hb hb16 hv0]
        exact hrun
      · rw [hres, numeral_step b v hb hv0]
        simp

theorem evaluate_numeral (b v : Nat) (hb : 2 ≤ b) (hb16 : b ≤ 16) :
    evaluate b (numeral b v) = v := by
  have key : ∀ L : List Nat, (∀ d ∈ L, d < 16) →
      evaluate b (L.reverse.map digit_char) = Nat.ofDigits b L := by
    intro L
    induction L with
    | nil => intro _; rfl
    | cons d L ih =>
      intro h
      have hd : d < 16 := h d (List.mem_cons_self _ _)
      have ih2 := ih (fun x hx => h x (List.mem_cons_of_mem _ hx))
      unfold evaluate at ih2 ⊢
      rw [List.reverse_cons, List.map_append, List.foldl_append, ih2]
      simp only [List.map_cons, List.map_nil, List.foldl_cons, List.foldl_nil]
      rw [digit_value_digit_char d hd, Nat.ofDigits_cons]
      ring
  unfold numeral
  rw [key _ (fun d hd => lt_of_lt_of_le (Nat.digits_lt_base (by omega) hd) hb16)]
  exact Nat.ofDigits_digits b v

/-- The numeral of a non-zero number represents it. -/
theorem represents_numeral (b v : Nat) (hb : 2 ≤ b) (hb16 : b ≤ 16) (hv : v ≠ 0) :
    represents b v (numeral b v) := by
  have hne : Nat.digits b v ≠ [] := Nat.digits_ne_nil_iff_ne_zero.mpr hv
  refine ⟨?_, ?_, ?_, evaluate_numeral b v hb hb16⟩
  · unfold numeral
    simpa using hne
  · unfold numeral
    have hlast := Nat.getLast_digit_ne_zero b hv
    have hlt : (Nat.digits b v).getLast hne < b :=
      Nat.digits_lt_base (by omega) (List.getLast_mem hne)
    rw [List.head?_map, List.head?_reverse, List.getLast?_eq_getLast _ hne]
    simp only [Option.map_some', ne_eq, Option.some.injEq]
    exact digit_char_ne_zero_char _ (by omega) hlast
  · intro c hc
    unfold numeral at hc
    simp only [List.mem_map, List.mem_reverse] at hc
    obtain ⟨d, hd, rfl⟩ := hc
    have hlt : d < b := Nat.digits_lt_base (by omega) hd
    rw [digit_value_digit_char d (by omega)]
    exact ⟨hlt, by omega⟩


/-- C8 (amended): for every `int` value `1 <= val <= 2^31 - 1` and base
`2 <= base <= 16`, with `val < 2^30` when the base is 2, and after any earlier
calls of `itoa`, the call `itoa(val, base)` returns a NUL-terminated string that
is the numeral of `val` in that base: lowercase digits of
`"0123456789abcdef"`, most significant first, no leading zero, evaluating to
`val`. -/
theorem itoa_numeral (earlier : List (Int × Int)) (val base : Int)
    (hdef : (itoa_run earlier itoa_buf_init).isSome = true)
    (h1 : 1 ≤ val) (h2 : val ≤ 2 ^ 31 - 1) (hb : 2 ≤ base) (hb16 : base ≤ 16)
    (hfit : base = 2 → val < 2 ^ 30) :
    itoa_string_after earlier val base = some (numeral base.toNat val.toNat) ∧
    represents base.toNat val.toNat (numeral base.toNat val.toNat) := by
  lift val to Nat using (by omega) with v
  lift base to Nat using (by omega) with b
  have hb' : 2 ≤ b := by exact_mod_cast hb
  have hb16' : b ≤ 16 := by exact_mod_cast hb16
  have hv1 : 1 ≤ v := by exact_mod_cast h1
  have hv2 : v < 2 ^ 31 := by
    have : (v : Int) < 2 ^ 31 := by omega
    exact_mod_cast this
  have hdigits : v < b ^ 30 := by
    by_cases h : b = 2
    · subst h
      have := hfit rfl
      exact_mod_cast this
    · have h3 : 3 ≤ b := by omega
      calc v < 2 ^ 31 := hv2
        _ ≤ 3 ^ 30 := by decide
        _ ≤ b ^ 30 := Nat.pow_le_pow_left h3 30
  obtain ⟨buf, hbuf⟩ := Option.isSome_iff_exists.mp hdef
  have hlast : buf 31 = 0 := itoa_run_last earlier _ buf hbuf
  have htail : c_string buf (31 - 30) (30 + 1) = some [] := by
    simp [c_string, hlast]
  obtain ⟨buf', p, hrun, hres⟩ := itoa_loop_string b hb' hb16' 30 v buf [] hdigits htail
  simp only [Int.toNat_ofNat]
  refine ⟨?_, represents_numeral b v hb' hb16' (by omega)⟩
  have e : 32 - (p + 1) = 31 - p := by omega
  simp only [itoa_string_after, hbuf, itoa, hrun, e]
  rw [hres, List.append_nil]

/-- Witness of C8 (amended): `itoa(255, 16)` after an earlier `itoa(123456, 10)`. -/
theorem itoa_numeral_witness :
    itoa_string_after [(123456, 10)] 255 16 = some (numeral (16 : Int).toNat (255 : Int).toNat) ∧
    represents (16 : Int).toNat (255 : Int).toNat (numeral (16 : Int).toNat (255 : Int).toNat) :=
  itoa_numeral [(123456, 10)] 255 16 (by decide) (by decide) (by decide) (by decide) (by decide)
    (by decide)

/-- C8 fails as stated: `itoa(2^30, 2)` on the zero-filled buffer returns thirty
characters `'0'`, which has a leading zero and evaluates to 0; the loop stops at
`i = 0` after thirty digits and the thirty-first, most significant one is
lost. -/
theorem itoa_base_two_truncates :
    (1 : Int) ≤ 2 ^ 30 ∧ (2 ^ 30 : Int) ≤ 2 ^ 31 - 1 ∧
    itoa_string_after [] (2 ^ 30) 2 = some (List.replicate 30 48) ∧
    ¬ represents 2 (2 ^ 30) (List.replicate 30 48) ∧
    evaluate 2 (List.replicate 30 48) = 0 := by
  decide


/-! ### The text terminal -/

theorem u32_of_lt (x : Nat) (h : x < 2 ^ 32) : u32 x = x := Nat.mod_eq_of_lt h

theorem scroll_copy_bound : u32 (u32 (TERMINAL_BUF_LEN * 2) + 2 ^ 32 - 160) = 3840 := by decide

theorem scroll_clear_base :
    u32 (u32 (u32 (VGA_HEIGHT + 2 ^ 32 - 2) * 2) * VGA_WIDTH) = 3680 := by decide

theorem fb_write_cell_spec (i c fg bg : Nat) (t : Terminal) :
    (fb_write_cell i c fg bg t).terminal_col = t.terminal_col ∧
    (fb_write_cell i c fg bg t).terminal_row = t.terminal_row ∧
    (fb_write_cell i c fg bg t).trace = [u32 (i + 1), i] ++ t.trace :=
  ⟨rfl, rfl, rfl⟩

theorem fb_move_cursor_spec (pos : Nat) (t : Terminal) :
    (fb_move_cursor pos t).terminal_col = t.terminal_col ∧
    (fb_move_cursor pos t).terminal_row = t.terminal_row ∧
    (fb_move_cursor pos t).trace = t.trace :=
  ⟨rfl, rfl, rfl⟩

/-- The copy loop of `terminal_scroll`, started at an even counter, leaves the
cursor alone and touches only offsets below 4000. -/
theorem scroll_copy_loop_spec (fuel i : Nat) (t : Terminal) (hi : i % 2 = 0) :
    (scroll_copy_loop fuel i t).terminal_col = t.terminal_col ∧
    (scroll_copy_loop fuel i t).terminal_row = t.terminal_row ∧
    ∃ new, (scroll_copy_loop fuel i t).trace = new ++ t.trace ∧ ∀ k ∈ new, k < 4000 := by
  induction fuel generalizing i t with
  | zero => exact ⟨rfl, rfl, [], rfl, by simp⟩
  | succ n ih =>
    unfold scroll_copy_loop
    rw [scroll_copy_bound]
    by_cases h : i < 3840
    · rw [if_pos h]
      have e1 : u32 (i + 160) = i + 160 := u32_of_lt _ (by omega)
      have e2 : u32 (i + 160 + 1) = i + 161 := u32_of_lt _ (by omega)
      have e3 : u32 (i + 1) = i + 1 := u32_of_lt _ (by omega)
      have e4 : u32 (i + 2) = i + 2 := u32_of_lt _ (by omega)
      simp only [fb_read, fb_store, e1, e2, e3, e4]
      obtain ⟨h1, h2, new, h3, h4⟩ := ih (i + 2)
        { fb := (t.fb.setD i (u8 (t.fb.getD (i + 160) 0))).setD (i + 1)
            (u8 ((t.fb.setD i (u8 (t.fb.getD (i + 160) 0))).getD (i + 161) 0)),
          terminal_col := t.terminal_col, terminal_row := t.terminal_row, ports := t.ports,
          trace := (i + 1) :: (i + 161) :: i :: (i + 160) :: t.trace } (by omega)
      refine ⟨h1, h2, new ++ [i + 1, i + 161, i, i + 160], ?_, ?_⟩
      · rw [h3]
        simp
      · intro k hk
        rw [List.mem_append] at hk
        rcases hk with hk | hk
        · exact h4 k hk
        · simp only [List.mem_cons, List.mem_singleton, List.not_mem_nil, or_false] at hk
          omega
    · rw [if_neg h]
      exact ⟨rfl, rfl, [], rfl, by simp⟩

/-- The clearing loop of `terminal_scroll` leaves the cursor alone and touches
only offsets below 4000. -/
theorem scroll_clear_loop_spec (fuel i : Nat) (t : Terminal) :
    (scroll_clear_loop fuel i t).terminal_col = t.terminal_col ∧
    (scroll_clear_loop fuel i t).terminal_row = t.terminal_row ∧
    ∃ new, (scroll_clear_loop fuel i t).trace = new ++ t.trace ∧ ∀ k ∈ new, k < 4000 := by
  induction fuel generalizing i t with
  | zero => exact ⟨rfl, rfl, [], rfl, by simp⟩
  | succ n ih =>
    unfold scroll_clear_loop
    by_cases h : i < VGA_WIDTH
    · rw [if_pos h, scroll_clear_base]
      have h80 : i < 80 := h
      have e1 : u32 (3680 + i) = 3680 + i := u32_of_lt _ (by omega)
      have e2 : u32 (3680 + i + 1) = 3680 + i + 1 := u32_of_lt _ (by omega)
      obtain ⟨h1, h2, new, h3, h4⟩ := ih (u32 (i + 2))
        (fb_write_cell (u32 (3680 + i)) 0 BG_BLACK BG_BLACK t)
      obtain ⟨c1, c2, c3⟩ := fb_write_cell_spec (u32 (3680 + i)) 0 BG_BLACK BG_BLACK t
      refine ⟨h1.trans c1, h2.trans c2, new ++ [3680 + i + 1, 3680 + i], ?_, ?_⟩
      · rw [h3, c3, e1, e2]
        simp
      · intro k hk
        rw [List.mem_append] at hk
        rcases hk with hk | hk
        · exact h4 k hk
        · simp only [List.mem_cons, List.mem_singleton, List.not_mem_nil, or_false] at hk
          omega
    · rw [if_neg h]
      exact ⟨rfl, rfl, [], rfl, by simp⟩

theorem terminal_scroll_spec (t : Terminal) :
    (terminal_scroll t).terminal_col = t.terminal_col ∧
    (terminal_scroll t).terminal_row = t.terminal_row ∧
    ∃ new, (terminal_scroll t).trace = new ++ t.trace ∧ ∀ k ∈ new, k < 4000 := by
  obtain ⟨a1, a2, n1, a3, a4⟩ := scroll_copy_loop_spec 1920 0 t rfl
  obtain ⟨b1, b2, n2, b3, b4⟩ := scroll_clear_loop_spec 40 0 (scroll_copy_loop 1920 0 t)
  refine ⟨b1.trans a1, b2.trans a2, n2 ++ n1, ?_, ?_⟩
  · show (scroll_clear_loop 40 0 (scroll_copy_loop 1920 0 t)).trace = _
    rw [b3, a3, List.append_assoc]
  · intro k hk
    rw [List.mem_append] at hk
    rcases hk with hk | hk
    · exact b4 k hk
    · exact a4 k hk


/-- The budget of 1920 iterations lets the copy loop run to its exit test: a
larger budget changes nothing. -/
theorem scroll_copy_loop_budget (extra fuel i : Nat) (t : Terminal) (hi : i % 2 = 0)
    (hfuel : 3840 ≤ i + 2 * fuel) :
    scroll_copy_loop (fuel + extra) i t = scroll_copy_loop fuel i t := by
  induction fuel generalizing i t with
  | zero =>
    cases extra with
    | zero => rfl
    | succ e =>
      rw [Nat.zero_add]
      unfold scroll_copy_loop
      rw [scroll_copy_bound, if_neg (by omega)]
  | succ n ih =>
    rw [Nat.succ_add]
    unfold scroll_copy_loop
    rw [scroll_copy_bound]
    by_cases h : i < 3840
    · rw [if_pos h, if_pos h]
      have e4 : u32 (i + 2) = i + 2 := u32_of_lt _ (by omega)
      simp only [e4]
      exact ih _ _ (by omega) (by omega)
    · rw [if_neg h, if_neg h]

/-- The budget of 40 iterations lets the clearing loop run to its exit test. -/
theorem scroll_clear_loop_budget (extra fuel i : Nat) (t : Terminal)
    (hfuel : 80 ≤ i + 2 * fuel) :
    scroll_clear_loop (fuel + extra) i t = scroll_clear_loop fuel i t := by
  induction fuel generalizing i t with
  | zero =>
    cases extra with
    | zero => rfl
    | succ e =>
      rw [Nat.zero_add]
      unfold scroll_clear_loop
      rw [if_neg (by unfold VGA_WIDTH; omega)]
  | succ n ih =>
    rw [Nat.succ_add]
    unfold scroll_clear_loop
    by_cases h : i < VGA_WIDTH
    · rw [if_pos h, if_pos h]
      have h80 : i < 80 := h
      have e4 : u32 (i + 2) = i + 2 := u32_of_lt _ (by omega)
      rw [e4]
      exact ih _ _ (by omega)
    · rw [if_neg h, if_neg h]

/-- One call of `putchar` from a state with `terminal_row <= 23` and an even
`terminal_col < 80` ends in such a state and touches only offsets below 4000. -/
theorem putchar_step (c : Nat) (t : Terminal) (h : cursor_ok t) :
    cursor_ok (putchar c t) ∧
    ∃ new, (putchar c t).trace = new ++ t.trace ∧ ∀ k ∈ new, k < 4000 := by
  obtain ⟨hr, hc2, hc⟩ := h
  have hr' : t.terminal_row ≤ 23 := hr
  have hc' : t.terminal_col < 80 := hc
  -- the newline test
  obtain ⟨t1, ht1⟩ : ∃ t1 : Terminal, t1 =
      if c = 10 then { t with terminal_col := 0, terminal_row := u32 (t.terminal_row + 1) }
      else t := ⟨_, rfl⟩
  obtain ⟨c1, hc1⟩ : ∃ c1 : Nat, c1 = if c = 10 then 0 else c := ⟨_, rfl⟩
  have p1 : t1.terminal_row ≤ 24 ∧ t1.terminal_col % 2 = 0 ∧ t1.terminal_col < 80 ∧
      (t1.terminal_row = 24 → t1.terminal_col = 0) ∧ t1.trace = t.trace := by
    rw [ht1]
    by_cases h10 : c = 10
    · rw [if_pos h10]
      have e : u32 (t.terminal_row + 1) = t.terminal_row + 1 := u32_of_lt _ (by omega)
      refine ⟨?_, rfl, Nat.zero_lt_succ _, fun _ => rfl, rfl⟩
      show u32 (t.terminal_row + 1) ≤ 24
      rw [e]
      omega
    · rw [if_neg h10]
      exact ⟨by omega, hc2, hc', fun h => by omega, rfl⟩
  obtain ⟨q1, q2, q3, q4, q5⟩ := p1
  -- the cell written
  obtain ⟨index, hindex⟩ : ∃ index : Nat, index =
      u32 (u32 (u32 (t1.terminal_row * VGA_WIDTH) * 2) + t1.terminal_col) := ⟨_, rfl⟩
  have pidx : index = t1.terminal_row * 160 + t1.terminal_col := by
    rw [hindex]
    have a1 : u32 (t1.terminal_row * VGA_WIDTH) = t1.terminal_row * 80 :=
      u32_of_lt _ (by unfold VGA_WIDTH; omega)
    have a2 : u32 (t1.terminal_row * 80 * 2) = t1.terminal_row * 160 := by
      rw [u32_of_lt _ (by omega)]
      omega
    rw [a1, a2]
    exact u32_of_lt _ (by omega)
  obtain ⟨t2, ht2⟩ : ∃ t2 : Terminal, t2 = fb_write_cell index c1 BG_BLACK FB_WHITE t1 :=
    ⟨_, rfl⟩
  obtain ⟨w1, w2, w3⟩ := fb_write_cell_spec index c1 BG_BLACK FB_WHITE t1
  rw [← ht2] at w1 w2 w3
  have w4 : u32 (index + 1) = index + 1 := u32_of_lt _ (by omega)
  rw [w4, q5] at w3
  -- the column advanced
  obtain ⟨t3, ht3⟩ : ∃ t3 : Terminal, t3 =
      { t2 with terminal_col := u32 (t2.terminal_col + 2) } := ⟨_, rfl⟩
  have r1 : t3.terminal_col = t1.terminal_col + 2 := by
    rw [ht3]
    show u32 (t2.terminal_col + 2) = _
    rw [w1]
    exact u32_of_lt _ (by omega)
  have r2 : t3.terminal_row = t1.terminal_row := by rw [ht3]; exact w2
  have r3 : t3.trace = [index + 1, index] ++ t.trace := by rw [ht3]; exact w3
  -- the wrap at the end of the line
  obtain ⟨t4, ht4⟩ : ∃ t4 : Terminal, t4 =
      if t3.terminal_col = VGA_WIDTH then
        { t3 with terminal_col := 0, terminal_row := u32 (t3.terminal_row + 1) }
      else t3 := ⟨_, rfl⟩
  have p4 : t4.terminal_row ≤ 24 ∧ t4.terminal_col % 2 = 0 ∧ t4.terminal_col < 80 ∧
      t4.trace = [index + 1, index] ++ t.trace := by
    rw [ht4]
    by_cases h80 : t3.terminal_col = VGA_WIDTH
    · rw [if_pos h80]
      have h80' : t3.terminal_col = 80 := h80
      have hrow : t1.terminal_row ≠ 24 := fun h => by
        have := q4 h
        omega
      have e : u32 (t3.terminal_row + 1) = t3.terminal_row + 1 := u32_of_lt _ (by omega)
      refine ⟨?_, rfl, Nat.zero_lt_succ _, r3⟩
      show u32 (t3.terminal_row + 1) ≤ 24
      rw [e]
      omega
    · rw [if_neg h80]
      have h80' : t3.terminal_col ≠ 80 := h80
      exact ⟨by omega, by omega, by omega, r3⟩
  obtain ⟨s1, s2, s3, s4⟩ := p4
  -- the scroll
  obtain ⟨t5, ht5⟩ : ∃ t5 : Terminal, t5 =
      if t4.terminal_row = u32 (VGA_HEIGHT + 2 ^ 32 - 1) then
        { terminal_scroll t4 with
          terminal_row := u32 ((terminal_scroll t4).terminal_row + 2 ^ 32 - 1) }
      else t4 := ⟨_, rfl⟩
  have p5 : t5.terminal_row ≤ 23 ∧ t5.terminal_col % 2 = 0 ∧ t5.terminal_col < 80 ∧
      ∃ new, t5.trace = new ++ t.trace ∧ ∀ k ∈ new, k < 4000 := by
    have e24 : u32 (VGA_HEIGHT + 2 ^ 32 - 1) = 24 := by decide
    have hnew : ∀ k ∈ [index + 1, index], k < 4000 := by
      intro k hk
      simp only [List.mem_cons, List.mem_singleton, List.not_mem_nil, or_false] at hk
      omega
    obtain ⟨z1, z2, new, z3, z4⟩ := terminal_scroll_spec t4
    rw [ht5, e24]
    generalize terminal_scroll t4 = ts at z1 z2 z3 ⊢
    by_cases h24 : t4.terminal_row = 24
    · rw [if_pos h24]
      have e : u32 (ts.terminal_row + 2 ^ 32 - 1) = 23 := by
        rw [z2, h24]
        decide
      refine ⟨?_, ?_, ?_, new ++ [index + 1, index], ?_, ?_⟩
      · show u32 (ts.terminal_row + 2 ^ 32 - 1) ≤ 23
        rw [e]
      · show ts.terminal_col % 2 = 0
        rw [z1]; exact s2
      · show ts.terminal_col < 80
        rw [z1]; exact s3
      · show ts.trace = _
        rw [z3, s4, List.append_assoc]
      · intro k hk
        rw [List.mem_append] at hk
        rcases hk with hk | hk
        · exact z4 k hk
        · exact hnew k hk
    · rw [if_neg h24]
      exact ⟨by omega, s2, s3, [index + 1, index], s4, hnew⟩
  -- the hardware cursor
  have hput : putchar c t =
      fb_move_cursor
        (u16 (u32 (u32 (u32 (t5.terminal_row + 1) * VGA_WIDTH) + t5.terminal_col))) t5 := by
    rw [ht5, ht4, ht3, ht2, hindex, hc1, ht1]
    rfl
  obtain ⟨m1, m2, m3⟩ := fb_move_cursor_spec
    (u16 (u32 (u32 (u32 (t5.terminal_row + 1) * VGA_WIDTH) + t5.terminal_col))) t5
  obtain ⟨v1, v2, v3, v4⟩ := p5
  rw [hput]
  refine ⟨⟨?_, ?_, ?_⟩, ?_⟩
  · rw [m2]; exact v1
  · rw [m1]; exact v2
  · rw [m1]; exact v3
  · rw [m3]; exact v4

/-- C9: if `terminal_row <= 23`, `terminal_col` is even and `terminal_col < 80`
before a call of `putchar`, the same holds after it for every character, and
every offset of the framebuffer read or written during the call, those of
`terminal_scroll` included, is below 4000. The initial state `row = 0`,
`col = 0` satisfies the three conditions, and so does the state after any
sequence of `putchar` calls, all of whose accesses are below 4000. -/
theorem putchar_cursor_invariant (c : Nat) (t : Terminal) (h : cursor_ok t) :
    (cursor_ok (putchar c t) ∧
      ∃ new, (putchar c t).trace = new ++ t.trace ∧ ∀ k ∈ new, k < 4000) ∧
    cursor_ok boot_terminal ∧
    ∀ cs : List Nat, cursor_ok (write cs boot_terminal) ∧
      ∀ k ∈ (write cs boot_terminal).trace, k < 4000 := by
  refine ⟨putchar_step c t h, by decide, ?_⟩
  have key : ∀ (cs : List Nat) (s : Terminal), cursor_ok s → (∀ k ∈ s.trace, k < 4000) →
      cursor_ok (write cs s) ∧ ∀ k ∈ (write cs s).trace, k < 4000 := by
    intro cs
    induction cs with
    | nil => intro s hs ht; exact ⟨hs, ht⟩
    | cons a rest ih =>
      intro s hs ht
      obtain ⟨g1, new, g2, g3⟩ := putchar_step a s hs
      have := ih (putchar a s) g1 (by
        intro k hk
        rw [g2, List.mem_append] at hk
        rcases hk with hk | hk
        · exact g3 k hk
        · exact ht k hk)
      exact this
  intro cs
  exact key cs boot_terminal (by decide) (by simp [boot_terminal])

/-- Witness of C9: the character `'A'` on the bottom line, last column. -/
theorem putchar_cursor_invariant_witness :
    (cursor_ok (putchar 65 { boot_terminal with terminal_row := 23, terminal_col := 78 }) ∧
      ∃ new, (putchar 65 { boot_terminal with terminal_row := 23, terminal_col := 78 }).trace =
          new ++ ({ boot_terminal with terminal_row := 23, terminal_col := 78 } : Terminal).trace ∧
        ∀ k ∈ new, k < 4000) ∧
    cursor_ok boot_terminal ∧
    ∀ cs : List Nat, cursor_ok (write cs boot_terminal) ∧
      ∀ k ∈ (write cs boot_terminal).trace, k < 4000 :=
  putchar_cursor_invariant 65 { boot_terminal with terminal_row := 23, terminal_col := 78 }
    (by decide)

end OS
